import Mathlib

/-!
Shallow embedding of the `ttldict` library (`src/ttldict/__init__.py`),
a thread-safe TTL keyed map: a dict `d : key ↦ (expiration, value)` plus a
FIFO `expiring_queue` of `(expiration, key, optional callback)` entries, with
a lazy `purge` pass run at the start of every public operation.

Modelling choices:
* Timestamps are `Nat`; the source only adds (`now + ttl`) and compares (`<`)
  times, so any linearly ordered additive time domain is faithful.
* The `RLock` is dropped: every public operation is modelled as a single
  atomic state transition, which is exactly what the lock guarantees.
* A callback is an opaque identity together with a flag saying whether calling
  it raises; invocations `cb(key, val)` are recorded in a `Fired` log.
* Python exceptions surface as `Except PErr`; an uncaught exception from a
  callback aborts the purge loop with the `exn` flag set.
* The two `time.time()` calls inside one operation are modelled as the same
  instant `now`, passed explicitly to the operation.
-/

variable {K V A : Type}

/-- An expiration callback: an opaque identity plus whether invoking it
raises an exception. -/
structure Cb where
  id : Nat
  raises : Bool
deriving DecidableEq, Repr

/-- A record of one callback invocation `cb(key, val)` performed by `purge`. -/
structure Fired (K V : Type) where
  cb : Nat
  key : K
  val : V
deriving DecidableEq, Repr

/-- Python exceptions that the modelled operations can surface. -/
inductive PErr where
  | keyError
  | typeError
  | cbRaised
deriving DecidableEq, Repr

/-- One entry of `self.expiring_queue`: `(expiration, key, callback-or-None)`. -/
abbrev QEntry (K : Type) := Nat × K × Option Cb

/-- Lookup in the association list modelling the Python dict `self.d`. -/
def dlookup [DecidableEq K] : List (K × A) → K → Option A
  | [], _ => none
  | (k, a) :: rest, key => if key = k then some a else dlookup rest key

/-- `self.d[key] = a`: replace the binding for `key` if present, else append. -/
def dinsert [DecidableEq K] : List (K × A) → K → A → List (K × A)
  | [], key, a => [(key, a)]
  | (k, b) :: rest, key, a =>
    if key = k then (key, a) :: rest else (k, b) :: dinsert rest key a

/-- `del self.d[key]`: drop the binding for `key`. -/
def derase [DecidableEq K] : List (K × A) → K → List (K × A)
  | [], _ => []
  | (k, b) :: rest, key =>
    if key = k then derase rest key else (k, b) :: derase rest key

/-- The `TTLDict` state: the fixed `ttl`, the dict `d` mapping a key to its
`(expiration, value)` pair, and the FIFO `expiring_queue`. -/
structure TTLDict (K V : Type) where
  ttl : Nat
  d : List (K × Nat × V)
  expiring_queue : List (QEntry K)

/-- `__init__(self, ttl, *args, **kwargs)`: `self.d = dict(*args, **kwargs)`;
`self.expiring_queue = deque()`.  The initial entries are stored verbatim by
`dict(...)`; this definition covers callers whose initial values are already
`(timestamp, value)`-shaped.  `TTLDictRaw.init` below additionally covers
arbitrarily shaped initial values, which `dict(...)` also stores unchanged. -/
def TTLDict.init (ttl : Nat) (entries : List (K × Nat × V)) : TTLDict K V :=
  ⟨ttl, entries, []⟩

/-- Result of one run of the `purge` while-loop: the dict and queue after the
run, the log of callback invocations, and whether an exception escaped from a
callback (aborting the loop). -/
structure PurgeRes (K V : Type) where
  d : List (K × Nat × V)
  q : List (QEntry K)
  fired : List (Fired K V)
  exn : Bool

/-- The `purge` while-loop:
`while len(self.expiring_queue) > 0 and self.expiring_queue[0][0] < cur_time:`
pop the head `(ts, key, cb)`; if `key in self.d` and its stored expiration is
strictly before `cur_time`, delete it and call `cb(key, val)` if `cb` is not
`None`.  A callback that raises propagates its exception, aborting the loop
with the entry already popped and the key already deleted. -/
def purgeLoop [DecidableEq K] (cur : Nat) :
    List (QEntry K) → List (K × Nat × V) → PurgeRes K V
  | [], d => ⟨d, [], [], false⟩
  | (ts, key, cb) :: rest, d =>
    if ts < cur then
      match dlookup d key with
      | some (exp, val) =>
        if exp < cur then
          match cb with
          | some c =>
            if c.raises then
              ⟨derase d key, rest, [⟨c.id, key, val⟩], true⟩
            else
              let r := purgeLoop cur rest (derase d key)
              ⟨r.d, r.q, ⟨c.id, key, val⟩ :: r.fired, r.exn⟩
          | none => purgeLoop cur rest (derase d key)
        else purgeLoop cur rest d
      | none => purgeLoop cur rest d
    else ⟨d, (ts, key, cb) :: rest, [], false⟩

/-- `purge(self)`: run the purge loop at the captured time `cur`. -/
def TTLDict.purge [DecidableEq K] (st : TTLDict K V) (cur : Nat) :
    TTLDict K V × List (Fired K V) × Bool :=
  let r := purgeLoop cur st.expiring_queue st.d
  (⟨st.ttl, r.d, r.q⟩, r.fired, r.exn)

/-- `__contains__(self, key)`: purge, then `key in self.d`. -/
def TTLDict.contains [DecidableEq K] (st : TTLDict K V) (now : Nat) (key : K) :
    TTLDict K V × List (Fired K V) × Except PErr Bool :=
  let r := purgeLoop now st.expiring_queue st.d
  (⟨st.ttl, r.d, r.q⟩, r.fired,
    if r.exn then .error .cbRaised else .ok (dlookup r.d key).isSome)

/-- `__getitem__(self, key)`: purge, then `return self.d[key][1]`; a missing
key raises `KeyError`. -/
def TTLDict.getitem [DecidableEq K] (st : TTLDict K V) (now : Nat) (key : K) :
    TTLDict K V × List (Fired K V) × Except PErr V :=
  let r := purgeLoop now st.expiring_queue st.d
  (⟨st.ttl, r.d, r.q⟩, r.fired,
    if r.exn then .error .cbRaised
    else
      match dlookup r.d key with
      | some (_, v) => .ok v
      | none => .error .keyError)

/-- `__setitem__(self, key, value)`: purge, `exp = time.time() + self.ttl`,
`self.d[key] = exp, value`, `self.expiring_queue.append((exp, key, None))`. -/
def TTLDict.setitem [DecidableEq K] (st : TTLDict K V) (now : Nat) (key : K)
    (value : V) : TTLDict K V × List (Fired K V) × Except PErr Unit :=
  let r := purgeLoop now st.expiring_queue st.d
  if r.exn then (⟨st.ttl, r.d, r.q⟩, r.fired, .error .cbRaised)
  else
    (⟨st.ttl, dinsert r.d key (now + st.ttl, value),
      r.q ++ [(now + st.ttl, key, none)]⟩, r.fired, .ok ())

/-- `set(self, key, value, expire_callback=None)`: like `__setitem__` but the
queue entry stores the caller-supplied callback. -/
def TTLDict.set [DecidableEq K] (st : TTLDict K V) (now : Nat) (key : K)
    (value : V) (expire_callback : Option Cb) :
    TTLDict K V × List (Fired K V) × Except PErr Unit :=
  let r := purgeLoop now st.expiring_queue st.d
  if r.exn then (⟨st.ttl, r.d, r.q⟩, r.fired, .error .cbRaised)
  else
    (⟨st.ttl, dinsert r.d key (now + st.ttl, value),
      r.q ++ [(now + st.ttl, key, expire_callback)]⟩, r.fired, .ok ())

/-- `clear(self)`: `self.d.clear()`, `self.expiring_queue.clear()`.  No purge
runs and no callback is invoked, hence the empty `Fired` log. -/
def TTLDict.clear (st : TTLDict K V) : TTLDict K V × List (Fired K V) :=
  (⟨st.ttl, [], []⟩, [])

/-- `get(self, key, default=None)`: purge, then
`return self.d.get(key, (0, default))[1]`.  The default (Python `None` or a
supplied value, hence `Option V`) is wrapped in a `(0, default)` pair before
the `[1]` subscript, so it is returned verbatim on a miss. -/
def TTLDict.get [DecidableEq K] (st : TTLDict K V) (now : Nat) (key : K)
    (default : Option V) :
    TTLDict K V × List (Fired K V) × Except PErr (Option V) :=
  let r := purgeLoop now st.expiring_queue st.d
  (⟨st.ttl, r.d, r.q⟩, r.fired,
    if r.exn then .error .cbRaised
    else
      .ok (match dlookup r.d key with
        | some (_, v) => some v
        | none => default))

/-- The value of `self.d.pop(*args)`: the stored `(exp, value)` pair when the
key is present, the bare default when it is absent and a default was passed,
and `KeyError` when it is absent and no default was passed. -/
def dpop [DecidableEq K] (d : List (K × Nat × V)) (key : K)
    (default : Option V) :
    List (K × Nat × V) × Except PErr ((Nat × V) ⊕ V) :=
  match dlookup d key with
  | some p => (derase d key, .ok (.inl p))
  | none =>
    match default with
    | some d0 => (d, .ok (.inr d0))
    | none => (d, .error .keyError)

/-- The trailing `[1]` subscript in `self.d.pop(*args)[1]`: it projects a
stored `(exp, value)` pair, but subscripting a bare default of the abstract
value type is a `TypeError`. -/
def sub1 : (Nat × V) ⊕ V → Except PErr V
  | .inl p => .ok p.2
  | .inr _ => .error .typeError

/-- `pop(self, *args)`: purge, then `return self.d.pop(*args)[1]`. -/
def TTLDict.pop [DecidableEq K] (st : TTLDict K V) (now : Nat) (key : K)
    (default : Option V) :
    TTLDict K V × List (Fired K V) × Except PErr V :=
  let r := purgeLoop now st.expiring_queue st.d
  if r.exn then (⟨st.ttl, r.d, r.q⟩, r.fired, .error .cbRaised)
  else
    let p := dpop r.d key default
    (⟨st.ttl, p.1, r.q⟩, r.fired, p.2.bind sub1)

/-- `setdefault(self, key, default)`: purge; if `key in self.d` return
`self.d[key][1]`; otherwise `self.__setitem__(key, default)` (which purges
again under the re-entrant lock) and return `default`. -/
def TTLDict.setdefault [DecidableEq K] (st : TTLDict K V) (now : Nat) (key : K)
    (default : V) : TTLDict K V × List (Fired K V) × Except PErr V :=
  let r := purgeLoop now st.expiring_queue st.d
  if r.exn then (⟨st.ttl, r.d, r.q⟩, r.fired, .error .cbRaised)
  else
    match dlookup r.d key with
    | some (_, v) => (⟨st.ttl, r.d, r.q⟩, r.fired, .ok v)
    | none =>
      let s := TTLDict.setitem ⟨st.ttl, r.d, r.q⟩ now key default
      (s.1, r.fired ++ s.2.1, s.2.2.map (fun _ => default))

/-- A Python value as actually stored in `self.d`: values written by
`__setitem__`/`set` are `(expiration, value)` pairs, but `__init__` stores
whatever the caller supplied unchanged, so a bare initial value is possible. -/
inductive RawVal (V : Type) where
  | pair (exp : Nat) (v : V)
  | bare (v : V)
deriving DecidableEq, Repr

/-- The `TTLDict` state without the assumption that every stored value is an
`(expiration, value)` pair; used to model construction with initial entries. -/
structure TTLDictRaw (K V : Type) where
  ttl : Nat
  d : List (K × RawVal V)
  expiring_queue : List (QEntry K)

/-- `__init__(self, ttl, *args, **kwargs)` on arbitrarily shaped initial
entries: `dict(*args, **kwargs)` stores them unchanged and the queue starts
empty. -/
def TTLDictRaw.init (ttl : Nat) (entries : List (K × RawVal V)) :
    TTLDictRaw K V :=
  ⟨ttl, entries, []⟩

/-- The purge while-loop over raw stored values.  The unpacking
`exp, val = self.d[key]` is a `TypeError` on a bare (non-pair) value, which
would propagate and abort the loop. -/
def rawPurgeLoop [DecidableEq K] (cur : Nat) :
    List (QEntry K) → List (K × RawVal V) →
    List (K × RawVal V) × List (QEntry K) × List (Fired K V) × Option PErr
  | [], d => (d, [], [], none)
  | (ts, key, cb) :: rest, d =>
    if ts < cur then
      match dlookup d key with
      | some (.pair exp val) =>
        if exp < cur then
          match cb with
          | some c =>
            if c.raises then
              (derase d key, rest, [⟨c.id, key, val⟩], some .cbRaised)
            else
              let r := rawPurgeLoop cur rest (derase d key)
              (r.1, r.2.1, ⟨c.id, key, val⟩ :: r.2.2.1, r.2.2.2)
          | none => rawPurgeLoop cur rest (derase d key)
        else rawPurgeLoop cur rest d
      | some (.bare _) => (d, rest, [], some .typeError)
      | none => rawPurgeLoop cur rest d
    else (d, (ts, key, cb) :: rest, [], none)

/-- `__contains__` over raw stored values: purge, then `key in self.d`. -/
def TTLDictRaw.contains [DecidableEq K] (st : TTLDictRaw K V) (now : Nat)
    (key : K) : TTLDictRaw K V × List (Fired K V) × Except PErr Bool :=
  let r := rawPurgeLoop now st.expiring_queue st.d
  (⟨st.ttl, r.1, r.2.1⟩, r.2.2.1,
    match r.2.2.2 with
    | some e => .error e
    | none => .ok (dlookup r.1 key).isSome)

/-- `__getitem__` over raw stored values: purge, then `self.d[key][1]`; the
`[1]` subscript is a `TypeError` when the stored value is a bare initial value
rather than an `(expiration, value)` pair. -/
def TTLDictRaw.getitem [DecidableEq K] (st : TTLDictRaw K V) (now : Nat)
    (key : K) : TTLDictRaw K V × List (Fired K V) × Except PErr V :=
  let r := rawPurgeLoop now st.expiring_queue st.d
  (⟨st.ttl, r.1, r.2.1⟩, r.2.2.1,
    match r.2.2.2 with
    | some e => .error e
    | none =>
      match dlookup r.1 key with
      | some (.pair _ v) => .ok v
      | some (.bare _) => .error .typeError
      | none => .error .keyError)

/-- Head-to-tail non-decreasing timestamps in the queue (invariant I2 of the
spec; holds for any queue built by time-monotone writes at a fixed ttl). -/
def qSortedB : List (QEntry K) → Bool
  | [] => true
  | a :: rest => (rest.all fun b => a.1 ≤ b.1) && qSortedB rest

/-- No callback stored in the queue raises when invoked. -/
def noRaise (q : List (QEntry K)) : Bool :=
  q.all fun e =>
    match e.2.2 with
    | some c => !c.raises
    | none => true

/-- Invariant I1 of the spec: every key present in the dict with expiration
`e` has a queue entry `(e, k, _)` still in the queue. -/
def I1inv [DecidableEq K] (st : TTLDict K V) : Prop :=
  ∀ k e v, dlookup st.d k = some (e, v) → ∃ cb, (e, k, cb) ∈ st.expiring_queue

theorem dlookup_derase_self [DecidableEq K] (d : List (K × A)) (k : K) :
    dlookup (derase d k) k = none := by
  induction d with
  | nil => rfl
  | cons hd rest ih =>
    obtain ⟨k0, a0⟩ := hd
    by_cases h : k = k0
    · simpa [derase, h] using ih
    · simpa [derase, h, dlookup] using ih

theorem dlookup_derase_ne [DecidableEq K] (d : List (K × A)) (k k' : K)
    (h : k' ≠ k) : dlookup (derase d k) k' = dlookup d k' := by
  induction d with
  | nil => rfl
  | cons hd rest ih =>
    obtain ⟨k0, a0⟩ := hd
    by_cases hk : k = k0
    · subst hk
      simpa [derase, dlookup, h] using ih
    · by_cases hk' : k' = k0
      · simp [derase, hk, dlookup, hk']
      · simpa [derase, hk, dlookup, hk'] using ih

theorem dlookup_dinsert_self [DecidableEq K] (d : List (K × A)) (k : K)
    (a : A) : dlookup (dinsert d k a) k = some a := by
  induction d with
  | nil => simp [dinsert, dlookup]
  | cons hd rest ih =>
    obtain ⟨k0, b0⟩ := hd
    by_cases hk : k = k0
    · simp [dinsert, hk, dlookup]
    · simpa [dinsert, hk, dlookup] using ih

theorem dlookup_dinsert_ne [DecidableEq K] (d : List (K × A)) (k k' : K)
    (a : A) (h : k' ≠ k) : dlookup (dinsert d k a) k' = dlookup d k' := by
  induction d with
  | nil => simp [dinsert, dlookup, h]
  | cons hd rest ih =>
    obtain ⟨k0, b0⟩ := hd
    by_cases hk : k = k0
    · subst hk
      simp [dinsert, dlookup, h]
    · by_cases hk' : k' = k0
      · simp [dinsert, hk, dlookup, hk']
      · simpa [dinsert, hk, dlookup, hk'] using ih

theorem purgeLoop_absent [DecidableEq K] (cur : Nat) (q : List (QEntry K))
    (d : List (K × Nat × V)) (k : K) (h : dlookup d k = none) :
    dlookup (purgeLoop cur q d).d k = none ∧
      ∀ f ∈ (purgeLoop cur q d).fired, f.key ≠ k := by
  induction q generalizing d with
  | nil => simp [purgeLoop, h]
  | cons hd rest ih =>
    obtain ⟨ts, key, cb⟩ := hd
    by_cases hts : ts < cur
    · cases hl : dlookup d key with
      | none => simpa [purgeLoop, hts, hl] using ih d h
      | some p =>
        obtain ⟨exp, val⟩ := p
        have hkk : key ≠ k := by
          intro he
          rw [he, h] at hl
          cases hl
        have h' : dlookup (derase d key) k = none := by
          rw [dlookup_derase_ne d key k (Ne.symm hkk)]
          exact h
        by_cases hexp : exp < cur
        · cases cb with
          | none => simpa [purgeLoop, hts, hl, hexp] using ih (derase d key) h'
          | some c =>
            by_cases hr : c.raises
            · refine ⟨?_, ?_⟩
              · simpa [purgeLoop, hts, hl, hexp, hr] using h'
              · intro f hf
                simp [purgeLoop, hts, hl, hexp, hr] at hf
                rw [hf]
                exact hkk
            · have hih := ih (derase d key) h'
              refine ⟨?_, ?_⟩
              · simpa [purgeLoop, hts, hl, hexp, hr] using hih.1
              · intro f hf
                simp [purgeLoop, hts, hl, hexp, hr] at hf
                rcases hf with hf | hf
                · rw [hf]
                  exact hkk
                · exact hih.2 f hf
        · simpa [purgeLoop, hts, hl, hexp] using ih d h
    · simp [purgeLoop, hts, h]

theorem purgeLoop_live [DecidableEq K] (cur : Nat) (q : List (QEntry K))
    (d : List (K × Nat × V)) (k : K) (e : Nat) (v : V)
    (h : dlookup d k = some (e, v)) (hcur : cur ≤ e) :
    dlookup (purgeLoop cur q d).d k = some (e, v) ∧
      ∀ f ∈ (purgeLoop cur q d).fired, f.key ≠ k := by
  induction q generalizing d with
  | nil => simp [purgeLoop, h]
  | cons hd rest ih =>
    obtain ⟨ts, key, cb⟩ := hd
    by_cases hts : ts < cur
    · cases hl : dlookup d key with
      | none => simpa [purgeLoop, hts, hl] using ih d h
      | some p =>
        obtain ⟨exp, val⟩ := p
        by_cases hkk : key = k
        · subst hkk
          have hexp : ¬ e < cur := by omega
          simpa [purgeLoop, hts, h, hexp] using ih d h
        · have h' : dlookup (derase d key) k = some (e, v) := by
            rw [dlookup_derase_ne d key k (Ne.symm hkk)]
            exact h
          by_cases hexp : exp < cur
          · cases cb with
            | none => simpa [purgeLoop, hts, hl, hexp] using ih (derase d key) h'
            | some c =>
              by_cases hr : c.raises
              · refine ⟨?_, ?_⟩
                · simpa [purgeLoop, hts, hl, hexp, hr] using h'
                · intro f hf
                  simp [purgeLoop, hts, hl, hexp, hr] at hf
                  rw [hf]
                  exact hkk
              · have hih := ih (derase d key) h'
                refine ⟨?_, ?_⟩
                · simpa [purgeLoop, hts, hl, hexp, hr] using hih.1
                · intro f hf
                  simp [purgeLoop, hts, hl, hexp, hr] at hf
                  rcases hf with hf | hf
                  · rw [hf]
                    exact hkk
                  · exact hih.2 f hf
          · simpa [purgeLoop, hts, hl, hexp] using ih d h
    · simp [purgeLoop, hts, h]

theorem purgeLoop_noRaise [DecidableEq K] (cur : Nat) (q : List (QEntry K))
    (d : List (K × Nat × V)) (hnr : noRaise q = true) :
    (purgeLoop cur q d).exn = false := by
  induction q generalizing d with
  | nil => simp [purgeLoop]
  | cons hd rest ih =>
    obtain ⟨ts, key, cb⟩ := hd
    have hnr' : noRaise rest = true := by
      simp [noRaise, List.all_cons] at hnr ⊢
      exact hnr.2
    by_cases hts : ts < cur
    · cases hl : dlookup d key with
      | none => simpa [purgeLoop, hts, hl] using ih d hnr'
      | some p =>
        obtain ⟨exp, val⟩ := p
        by_cases hexp : exp < cur
        · cases cb with
          | none =>
            simpa [purgeLoop, hts, hl, hexp] using ih (derase d key) hnr'
          | some c =>
            have hr : c.raises = false := by
              simp [noRaise, List.all_cons] at hnr
              exact hnr.1
            simpa [purgeLoop, hts, hl, hexp, hr] using ih (derase d key) hnr'
        · simpa [purgeLoop, hts, hl, hexp] using ih d hnr'
    · simp [purgeLoop, hts]

theorem purgeLoop_suffix [DecidableEq K] (cur : Nat) (q : List (QEntry K))
    (d : List (K × Nat × V)) : (purgeLoop cur q d).q <:+ q := by
  induction q generalizing d with
  | nil => simp [purgeLoop]
  | cons hd rest ih =>
    obtain ⟨ts, key, cb⟩ := hd
    have hstep : rest <:+ (ts, key, cb) :: rest := List.suffix_cons _ _
    by_cases hts : ts < cur
    · cases hl : dlookup d key with
      | none =>
        simpa [purgeLoop, hts, hl] using (ih d).trans hstep
      | some p =>
        obtain ⟨exp, val⟩ := p
        by_cases hexp : exp < cur
        · cases cb with
          | none =>
            simpa [purgeLoop, hts, hl, hexp] using (ih (derase d key)).trans hstep
          | some c =>
            by_cases hr : c.raises
            · simp [purgeLoop, hts, hl, hexp, hr]
            · simpa [purgeLoop, hts, hl, hexp, hr] using
                (ih (derase d key)).trans hstep
        · simpa [purgeLoop, hts, hl, hexp] using (ih d).trans hstep
    · simp [purgeLoop, hts]

theorem purgeLoop_stop [DecidableEq K] (cur : Nat) (q : List (QEntry K))
    (d : List (K × Nat × V)) (h : (purgeLoop cur q d).exn = false) :
    (purgeLoop cur q d).q = [] ∨
      ∃ hd tl, (purgeLoop cur q d).q = hd :: tl ∧ ¬ hd.1 < cur := by
  induction q generalizing d with
  | nil =>
    left
    simp [purgeLoop]
  | cons hd rest ih =>
    obtain ⟨ts, key, cb⟩ := hd
    by_cases hts : ts < cur
    · cases hl : dlookup d key with
      | none =>
        have e : purgeLoop cur ((ts, key, cb) :: rest) d = purgeLoop cur rest d := by
          simp [purgeLoop, hts, hl]
        rw [e] at h ⊢
        exact ih d h
      | some p =>
        obtain ⟨exp, val⟩ := p
        by_cases hexp : exp < cur
        · cases cb with
          | none =>
            have e : purgeLoop cur ((ts, key, none) :: rest) d =
                purgeLoop cur rest (derase d key) := by
              simp [purgeLoop, hts, hl, hexp]
            rw [e] at h ⊢
            exact ih (derase d key) h
          | some c =>
            by_cases hr : c.raises
            · exfalso
              have e : (purgeLoop cur ((ts, key, some c) :: rest) d).exn = true := by
                simp [purgeLoop, hts, hl, hexp, hr]
              rw [e] at h
              cases h
            · have e1 : (purgeLoop cur ((ts, key, some c) :: rest) d).q =
                  (purgeLoop cur rest (derase d key)).q := by
                simp [purgeLoop, hts, hl, hexp, hr]
              have e2 : (purgeLoop cur ((ts, key, some c) :: rest) d).exn =
                  (purgeLoop cur rest (derase d key)).exn := by
                simp [purgeLoop, hts, hl, hexp, hr]
              rw [e2] at h
              rw [e1]
              exact ih (derase d key) h
        · have e : purgeLoop cur ((ts, key, cb) :: rest) d = purgeLoop cur rest d := by
            simp [purgeLoop, hts, hl, hexp]
          rw [e] at h ⊢
          exact ih d h
    · right
      exact ⟨(ts, key, cb), rest, by simp [purgeLoop, hts], hts⟩

theorem purgeLoop_idem [DecidableEq K] (cur : Nat) (q : List (QEntry K))
    (d : List (K × Nat × V)) (h : (purgeLoop cur q d).exn = false) :
    purgeLoop cur (purgeLoop cur q d).q (purgeLoop cur q d).d =
      ⟨(purgeLoop cur q d).d, (purgeLoop cur q d).q, [], false⟩ := by
  rcases purgeLoop_stop cur q d h with h0 | ⟨hd, tl, hq, hts⟩
  · rw [h0]
    rfl
  · rw [hq]
    obtain ⟨ts, key, cb⟩ := hd
    simp only at hts
    simp [purgeLoop, hts]

theorem noRaise_rest {e : QEntry K} {q : List (QEntry K)}
    (h : noRaise (e :: q) = true) : noRaise q = true := by
  simp only [noRaise, List.all_cons, Bool.and_eq_true] at h ⊢
  exact h.2

theorem noRaise_head {ts : Nat} {key : K} {c : Cb} {q : List (QEntry K)}
    (h : noRaise ((ts, key, some c) :: q) = true) : c.raises = false := by
  simp only [noRaise, List.all_cons, Bool.and_eq_true] at h
  simpa using h.1

theorem qSortedB_rest {e : QEntry K} {q : List (QEntry K)}
    (h : qSortedB (e :: q) = true) : qSortedB q = true := by
  simp only [qSortedB, Bool.and_eq_true] at h
  exact h.2

theorem qSortedB_head_le {e : QEntry K} {q : List (QEntry K)}
    (h : qSortedB (e :: q) = true) : ∀ b ∈ q, e.1 ≤ b.1 := by
  simp only [qSortedB, Bool.and_eq_true, List.all_eq_true] at h
  intro b hb
  simpa using h.1 b hb

theorem purgeLoop_kills [DecidableEq K] (cur : Nat) (q : List (QEntry K))
    (d : List (K × Nat × V)) (k : K) :
    qSortedB q = true → noRaise q = true →
    (∃ ts cb, (ts, k, cb) ∈ q ∧ ts < cur) →
    (∀ e v, dlookup d k = some (e, v) → e < cur) →
    dlookup (purgeLoop cur q d).d k = none := by
  induction q generalizing d with
  | nil =>
    intro _ _ hm _
    obtain ⟨ts, cb, hmem, _⟩ := hm
    cases hmem
  | cons hd rest ih =>
    intro hs hnr hm hdead
    obtain ⟨ts, cb, hmem, hts⟩ := hm
    obtain ⟨ts0, key0, cb0⟩ := hd
    have hs' : qSortedB rest = true := qSortedB_rest hs
    have hnr' : noRaise rest = true := noRaise_rest hnr
    have hts0 : ts0 < cur := by
      rcases List.mem_cons.mp hmem with he | hm2
      · have h1 : ts = ts0 := congrArg Prod.fst he
        omega
      · have h1 : ts0 ≤ ts := qSortedB_head_le hs (ts, k, cb) hm2
        omega
    have hmrest : key0 ≠ k → (ts, k, cb) ∈ rest := by
      intro hk
      rcases List.mem_cons.mp hmem with he | hm2
      · exact absurd (congrArg (fun x => x.2.1) he).symm hk
      · exact hm2
    cases hl : dlookup d key0 with
    | none =>
      have e : purgeLoop cur ((ts0, key0, cb0) :: rest) d = purgeLoop cur rest d := by
        simp [purgeLoop, hts0, hl]
      rw [e]
      by_cases hk : key0 = k
      · subst hk
        exact (purgeLoop_absent cur rest d key0 hl).1
      · exact ih d hs' hnr' ⟨ts, cb, hmrest hk, hts⟩ hdead
    | some p =>
      obtain ⟨exp, val⟩ := p
      by_cases hk : key0 = k
      · subst hk
        have hexp : exp < cur := hdead _ _ hl
        cases cb0 with
        | none =>
          have e : purgeLoop cur ((ts0, key0, none) :: rest) d =
              purgeLoop cur rest (derase d key0) := by
            simp [purgeLoop, hts0, hl, hexp]
          rw [e]
          exact (purgeLoop_absent cur rest (derase d key0) key0
            (dlookup_derase_self d key0)).1
        | some c =>
          have hr : c.raises = false := noRaise_head hnr
          have e : (purgeLoop cur ((ts0, key0, some c) :: rest) d).d =
              (purgeLoop cur rest (derase d key0)).d := by
            simp [purgeLoop, hts0, hl, hexp, hr]
          rw [e]
          exact (purgeLoop_absent cur rest (derase d key0) key0
            (dlookup_derase_self d key0)).1
      · have hm2 : (ts, k, cb) ∈ rest := hmrest hk
        by_cases hexp : exp < cur
        · have hdead' : ∀ e v, dlookup (derase d key0) k = some (e, v) → e < cur := by
            intro e v h'
            rw [dlookup_derase_ne d key0 k (Ne.symm hk)] at h'
            exact hdead e v h'
          cases cb0 with
          | none =>
            have e : purgeLoop cur ((ts0, key0, none) :: rest) d =
                purgeLoop cur rest (derase d key0) := by
              simp [purgeLoop, hts0, hl, hexp]
            rw [e]
            exact ih (derase d key0) hs' hnr' ⟨ts, cb, hm2, hts⟩ hdead'
          | some c =>
            have hr : c.raises = false := noRaise_head hnr
            have e : (purgeLoop cur ((ts0, key0, some c) :: rest) d).d =
                (purgeLoop cur rest (derase d key0)).d := by
              simp [purgeLoop, hts0, hl, hexp, hr]
            rw [e]
            exact ih (derase d key0) hs' hnr' ⟨ts, cb, hm2, hts⟩ hdead'
        · have e : purgeLoop cur ((ts0, key0, cb0) :: rest) d = purgeLoop cur rest d := by
            simp [purgeLoop, hts0, hl, hexp]
          rw [e]
          exact ih d hs' hnr' ⟨ts, cb, hm2, hts⟩ hdead

theorem purgeLoop_once [DecidableEq K] (cur : Nat) (q : List (QEntry K))
    (d : List (K × Nat × V)) (k : K) :
    ((purgeLoop cur q d).fired.filter fun f => decide (f.key = k)).length ≤ 1 := by
  induction q generalizing d with
  | nil => simp [purgeLoop]
  | cons hd rest ih =>
    obtain ⟨ts, key, cb⟩ := hd
    by_cases hts : ts < cur
    · cases hl : dlookup d key with
      | none =>
        have e : purgeLoop cur ((ts, key, cb) :: rest) d = purgeLoop cur rest d := by
          simp [purgeLoop, hts, hl]
        rw [e]
        exact ih d
      | some p =>
        obtain ⟨exp, val⟩ := p
        by_cases hexp : exp < cur
        · cases cb with
          | none =>
            have e : purgeLoop cur ((ts, key, none) :: rest) d =
                purgeLoop cur rest (derase d key) := by
              simp [purgeLoop, hts, hl, hexp]
            rw [e]
            exact ih (derase d key)
          | some c =>
            by_cases hr : c.raises
            · have e : (purgeLoop cur ((ts, key, some c) :: rest) d).fired =
                  [⟨c.id, key, val⟩] := by
                simp [purgeLoop, hts, hl, hexp, hr]
              rw [e]
              exact le_trans (List.length_filter_le _ _) (by simp)
            · have e : (purgeLoop cur ((ts, key, some c) :: rest) d).fired =
                  ⟨c.id, key, val⟩ :: (purgeLoop cur rest (derase d key)).fired := by
                simp [purgeLoop, hts, hl, hexp, hr]
              rw [e]
              by_cases hk : key = k
              · subst hk
                have habs := (purgeLoop_absent cur rest (derase d key) key
                  (dlookup_derase_self d key)).2
                have hnil : ((purgeLoop cur rest (derase d key)).fired.filter
                    fun f => decide (f.key = key)) = [] := by
                  rw [List.filter_eq_nil_iff]
                  intro f hf
                  simp [habs f hf]
                simp [List.filter_cons, hnil]
              · simp only [List.filter_cons]
                simp only [decide_eq_true_eq]
                rw [if_neg hk]
                exact ih (derase d key)
        · have e : purgeLoop cur ((ts, key, cb) :: rest) d = purgeLoop cur rest d := by
            simp [purgeLoop, hts, hl, hexp]
          rw [e]
          exact ih d
    · simp [purgeLoop, hts]

theorem purgeLoop_I1 [DecidableEq K] (cur : Nat) (q : List (QEntry K))
    (d : List (K × Nat × V))
    (h : ∀ k e v, dlookup d k = some (e, v) → ∃ cb, (e, k, cb) ∈ q) :
    ∀ k e v, dlookup (purgeLoop cur q d).d k = some (e, v) →
      ∃ cb, (e, k, cb) ∈ (purgeLoop cur q d).q := by
  induction q generalizing d with
  | nil =>
    intro k e v hk
    simp only [purgeLoop] at hk
    obtain ⟨cb, hcb⟩ := h k e v hk
    cases hcb
  | cons hd rest ih =>
    obtain ⟨ts0, key0, cb0⟩ := hd
    intro k e v hk
    by_cases hts : ts0 < cur
    · cases hl : dlookup d key0 with
      | none =>
        have h' : ∀ k e v, dlookup d k = some (e, v) → ∃ cb, (e, k, cb) ∈ rest := by
          intro k' e' v' hk'
          obtain ⟨cb, hcb⟩ := h k' e' v' hk'
          rcases List.mem_cons.mp hcb with he | hmm
          · exfalso
            have hk0 : k' = key0 := congrArg (fun x => x.2.1) he
            rw [hk0, hl] at hk'
            cases hk'
          · exact ⟨cb, hmm⟩
        have e1 : purgeLoop cur ((ts0, key0, cb0) :: rest) d = purgeLoop cur rest d := by
          simp [purgeLoop, hts, hl]
        rw [e1] at hk ⊢
        exact ih d h' k e v hk
      | some p =>
        obtain ⟨exp, val⟩ := p
        by_cases hexp : exp < cur
        · have h' : ∀ k e v, dlookup (derase d key0) k = some (e, v) →
              ∃ cb, (e, k, cb) ∈ rest := by
            intro k' e' v' hk'
            have hkne : k' ≠ key0 := by
              intro he0
              rw [he0, dlookup_derase_self] at hk'
              cases hk'
            rw [dlookup_derase_ne d key0 k' hkne] at hk'
            obtain ⟨cb, hcb⟩ := h k' e' v' hk'
            rcases List.mem_cons.mp hcb with he | hmm
            · exact absurd (congrArg (fun x => x.2.1) he) hkne
            · exact ⟨cb, hmm⟩
          cases cb0 with
          | none =>
            have e1 : purgeLoop cur ((ts0, key0, none) :: rest) d =
                purgeLoop cur rest (derase d key0) := by
              simp [purgeLoop, hts, hl, hexp]
            rw [e1] at hk ⊢
            exact ih (derase d key0) h' k e v hk
          | some c =>
            by_cases hr : c.raises
            · have e1 : (purgeLoop cur ((ts0, key0, some c) :: rest) d).d =
                  derase d key0 := by
                simp [purgeLoop, hts, hl, hexp, hr]
              have e2 : (purgeLoop cur ((ts0, key0, some c) :: rest) d).q = rest := by
                simp [purgeLoop, hts, hl, hexp, hr]
              rw [e1] at hk
              rw [e2]
              exact h' k e v hk
            · have e1 : (purgeLoop cur ((ts0, key0, some c) :: rest) d).d =
                  (purgeLoop cur rest (derase d key0)).d := by
                simp [purgeLoop, hts, hl, hexp, hr]
              have e2 : (purgeLoop cur ((ts0, key0, some c) :: rest) d).q =
                  (purgeLoop cur rest (derase d key0)).q := by
                simp [purgeLoop, hts, hl, hexp, hr]
              rw [e1] at hk
              rw [e2]
              exact ih (derase d key0) h' k e v hk
        · have h' : ∀ k e v, dlookup d k = some (e, v) → ∃ cb, (e, k, cb) ∈ rest := by
            intro k' e' v' hk'
            obtain ⟨cb, hcb⟩ := h k' e' v' hk'
            rcases List.mem_cons.mp hcb with he | hmm
            · exfalso
              have hk0 : k' = key0 := congrArg (fun x => x.2.1) he
              have he0 : e' = ts0 := congrArg Prod.fst he
              rw [hk0, hl] at hk'
              injection hk' with hk'
              have h2 : exp = e' := congrArg Prod.fst hk'
              omega
            · exact ⟨cb, hmm⟩
          have e1 : purgeLoop cur ((ts0, key0, cb0) :: rest) d = purgeLoop cur rest d := by
            simp [purgeLoop, hts, hl, hexp]
          rw [e1] at hk ⊢
          exact ih d h' k e v hk
    · have e1 : (purgeLoop cur ((ts0, key0, cb0) :: rest) d).d = d := by
        simp [purgeLoop, hts]
      have e2 : (purgeLoop cur ((ts0, key0, cb0) :: rest) d).q =
          (ts0, key0, cb0) :: rest := by
        simp [purgeLoop, hts]
      rw [e1] at hk
      rw [e2]
      exact h k e v hk

theorem qSortedB_iff (q : List (QEntry K)) :
    qSortedB q = true ↔ List.Pairwise (fun a b => a.1 ≤ b.1) q := by
  induction q with
  | nil => simp [qSortedB]
  | cons a rest ih =>
    simp [qSortedB, Bool.and_eq_true, List.all_eq_true, List.pairwise_cons, ih]

theorem qSortedB_suffix {q q' : List (QEntry K)} (hsub : q' <:+ q)
    (hs : qSortedB q = true) : qSortedB q' = true := by
  rw [qSortedB_iff] at hs ⊢
  exact List.Pairwise.sublist hsub.sublist hs

theorem noRaise_suffix {q q' : List (QEntry K)} (hsub : q' <:+ q)
    (hnr : noRaise q = true) : noRaise q' = true := by
  simp only [noRaise, List.all_eq_true] at hnr ⊢
  exact fun e he => hnr e (hsub.sublist.subset he)

theorem qSortedB_append_one (q : List (QEntry K)) (x : QEntry K)
    (hs : qSortedB q = true) (hb : ∀ e ∈ q, e.1 ≤ x.1) :
    qSortedB (q ++ [x]) = true := by
  rw [qSortedB_iff] at hs ⊢
  rw [List.pairwise_append]
  refine ⟨hs, by simp, ?_⟩
  intro a ha b hbmem
  simp only [List.mem_singleton] at hbmem
  subst hbmem
  exact hb a ha

theorem noRaise_append_one (q : List (QEntry K)) (ts : Nat) (k : K)
    (cb : Option Cb) (hcb : ∀ c, cb = some c → c.raises = false)
    (hnr : noRaise q = true) : noRaise (q ++ [(ts, k, cb)]) = true := by
  simp only [noRaise, List.all_eq_true] at hnr ⊢
  intro e he
  rcases List.mem_append.mp he with he | he
  · exact hnr e he
  · simp only [List.mem_singleton] at he
    subst he
    cases cb with
    | none => rfl
    | some c => simpa using hcb c rfl

theorem contains_getitem_live [DecidableEq K] (st : TTLDict K V) (r : Nat)
    (k : K) (e : Nat) (v : V) (hnr : noRaise st.expiring_queue = true)
    (h : dlookup st.d k = some (e, v)) (hcur : r ≤ e) :
    (st.contains r k).2.2 = .ok true ∧ (st.getitem r k).2.2 = .ok v := by
  have hexn := purgeLoop_noRaise r st.expiring_queue st.d hnr
  have hlv := (purgeLoop_live r st.expiring_queue st.d k e v h hcur).1
  constructor
  · simp [TTLDict.contains, hexn, hlv]
  · simp [TTLDict.getitem, hexn, hlv]

theorem contains_getitem_dead [DecidableEq K] (st : TTLDict K V) (r : Nat)
    (k : K) (hs : qSortedB st.expiring_queue = true)
    (hnr : noRaise st.expiring_queue = true)
    (hm : ∃ ts cb, (ts, k, cb) ∈ st.expiring_queue ∧ ts < r)
    (hdead : ∀ e v, dlookup st.d k = some (e, v) → e < r) :
    (st.contains r k).2.2 = .ok false ∧
      (st.getitem r k).2.2 = .error .keyError := by
  have hexn := purgeLoop_noRaise r st.expiring_queue st.d hnr
  have hk := purgeLoop_kills r st.expiring_queue st.d k hs hnr hm hdead
  constructor
  · simp [TTLDict.contains, hexn, hk]
  · simp [TTLDict.getitem, hexn, hk]

theorem setitem_state [DecidableEq K] (st : TTLDict K V) (now : Nat) (k : K)
    (v : V) (hnr : noRaise st.expiring_queue = true) :
    (st.setitem now k v).1 =
      ⟨st.ttl,
        dinsert (purgeLoop now st.expiring_queue st.d).d k (now + st.ttl, v),
        (purgeLoop now st.expiring_queue st.d).q ++ [(now + st.ttl, k, none)]⟩ := by
  have hexn := purgeLoop_noRaise now st.expiring_queue st.d hnr
  simp [TTLDict.setitem, hexn]

/-- Claim C1, counterexample to the claim as stated.  With ttl 10, key 0 is
written at time 0 with callback id 1 and overwritten at time 5 with callback
id 2, so the queue entry `(10, 0, cb1)` is stale (its timestamp 10 is strictly
less than the stored expiration 15).  Purging at time 20 does NOT discard the
stale entry as a no-op: it deletes the key through it and invokes the EARLIER
write's callback (id 1) with the later value, and the later callback never
fires. -/
theorem c1_counterexample :
    ((((TTLDict.init 10 [] : TTLDict Nat Nat).set 0 0 1
          (some ⟨1, false⟩)).1.set 5 0 2 (some ⟨2, false⟩)).1.purge 20).2.1 =
      [⟨1, 0, 2⟩] := rfl

/-- Claim C1 as amended: a stale queue entry for key `k` is discarded as a
no-op (no deletion, no callback for `k`) whenever `k`'s current stored
expiration has not yet passed at purge time (`cur ≤ e`).  If the current
stored expiration has also passed, the purge run (with sorted, non-raising
queue and a reachable entry for `k`) does delete `k` — the deletion happens
exactly once — and in any single purge run at most one callback fires per
key, but the callback that fires may be the one registered by an earlier
write. -/
theorem c1_stale_amended [DecidableEq K] (cur : Nat) (q : List (QEntry K))
    (d : List (K × Nat × V)) (k : K) (e : Nat) (v : V) :
    (dlookup d k = some (e, v) → cur ≤ e →
      (dlookup (purgeLoop cur q d).d k = some (e, v) ∧
        ∀ f ∈ (purgeLoop cur q d).fired, f.key ≠ k)) ∧
    (qSortedB q = true → noRaise q = true →
      (∃ ts cb, (ts, k, cb) ∈ q ∧ ts < cur) →
      (∀ e' v', dlookup d k = some (e', v') → e' < cur) →
      dlookup (purgeLoop cur q d).d k = none) ∧
    ((purgeLoop cur q d).fired.filter fun f => decide (f.key = k)).length ≤ 1 := by
  refine ⟨?_, ?_, purgeLoop_once cur q d k⟩
  · intro h hle
    exact purgeLoop_live cur q d k e v h hle
  · intro hs hnr hm hdead
    exact purgeLoop_kills cur q d k hs hnr hm hdead

theorem c1_witness :
    (dlookup (purgeLoop 12 [(10, 0, some ⟨1, false⟩)]
        [(0, (15, 2))] : PurgeRes Nat Nat).d 0 = some (15, 2) ∧
      ∀ f ∈ (purgeLoop 12 [(10, 0, some ⟨1, false⟩)]
        [(0, (15, 2))] : PurgeRes Nat Nat).fired, f.key ≠ 0) ∧
    dlookup (purgeLoop 20 [(10, 0, some ⟨1, false⟩), (15, 0, some ⟨2, false⟩)]
        [(0, (15, 2))] : PurgeRes Nat Nat).d 0 = none := by
  constructor
  · exact (c1_stale_amended 12 [(10, 0, some ⟨1, false⟩)]
      [(0, (15, 2))] 0 15 2).1 rfl (by decide)
  · refine (c1_stale_amended 20
      [(10, 0, some ⟨1, false⟩), (15, 0, some ⟨2, false⟩)]
      [(0, (15, 2))] 0 15 2).2.1 (by decide) (by decide)
      ⟨10, some ⟨1, false⟩, by decide, by decide⟩ ?_
    intro e' v' h'
    have h2 : some ((15 : Nat), (2 : Nat)) = some (e', v') := h'
    injection h2 with h2
    have h3 : (15 : Nat) = e' := congrArg Prod.fst h2
    omega

/-- Claim C2, code-bug evidence.  `TTLDict(10, {0: 42})` stores the bare
initial value `42` in the Primary Store (violating the class's own annotation
`d: Dict[K, Tuple[float, V]]`), the key reads as present, and index-read
evaluates `42[1]`, a `TypeError`, instead of returning `42`. -/
theorem c2_init_bare :
    dlookup (TTLDictRaw.init 10 [(0, RawVal.bare 42)] : TTLDictRaw Nat Nat).d 0
        = some (RawVal.bare 42) ∧
    ((TTLDictRaw.init 10 [(0, RawVal.bare 42)] : TTLDictRaw Nat Nat).contains
        0 0).2.2 = .ok true ∧
    ((TTLDictRaw.init 10 [(0, RawVal.bare 42)] : TTLDictRaw Nat Nat).getitem
        0 0).2.2 = .error .typeError :=
  ⟨rfl, rfl, rfl⟩

/-- Claim C3, counterexample to the claim as stated.  With ttl 1, key 0 is
written at time 0 with a raising callback and key 1 at time 1; purging at
time 5 deletes key 0, its callback raises, and the loop ABORTS: key 1 is
still present although expired (its expiration 2 is before 5), so the purge
did not continue with the remaining expired entries. -/
theorem c3_counterexample :
    ((((TTLDict.init 1 [] : TTLDict Nat Nat).set 0 0 10
          (some ⟨7, true⟩)).1.set 1 1 20 none).1.purge 5).2.2 = true ∧
    (2 : Nat) < 5 ∧
    dlookup ((((TTLDict.init 1 [] : TTLDict Nat Nat).set 0 0 10
          (some ⟨7, true⟩)).1.set 1 1 20 none).1.purge 5).1.d 1 =
      some (2, 20) :=
  ⟨rfl, by decide, rfl⟩

/-- Claim C3 as amended: a callback that raises during purge propagates its
exception and aborts the purge loop at that entry — the entry is already
popped and its key already deleted, the remaining entries (including any
remaining expired ones) are left in the queue as a suffix for a future purge,
and invariant I1 is preserved even by an aborted purge, so the structure's
invariants are not corrupted. -/
theorem c3_callback_amended [DecidableEq K] :
    (∀ (cur ts : Nat) (k : K) (c : Cb) (rest : List (QEntry K))
        (d : List (K × Nat × V)) (e : Nat) (v : V),
      ts < cur → dlookup d k = some (e, v) → e < cur → c.raises = true →
      purgeLoop cur ((ts, k, some c) :: rest) d =
        ⟨derase d k, rest, [⟨c.id, k, v⟩], true⟩) ∧
    (∀ (st : TTLDict K V) (now : Nat), I1inv st → I1inv (st.purge now).1) ∧
    (∀ (cur : Nat) (q : List (QEntry K)) (d : List (K × Nat × V)),
      (purgeLoop cur q d).q <:+ q) := by
  refine ⟨?_, ?_, purgeLoop_suffix⟩
  · intro cur ts k c rest d e v hts h he hr
    simp [purgeLoop, hts, h, he, hr]
  · intro st now h k e v hk
    exact purgeLoop_I1 now st.expiring_queue st.d h k e v hk

theorem c3_witness :
    purgeLoop 5 [(1, 0, some ⟨7, true⟩), (2, 1, none)]
        ([(0, (1, 10)), (1, (2, 20))] : List (Nat × Nat × Nat)) =
      ⟨derase [(0, (1, 10)), (1, (2, 20))] 0, [(2, 1, none)],
        [⟨7, 0, 10⟩], true⟩ :=
  (@c3_callback_amended Nat Nat _).1 5 1 0 ⟨7, true⟩ [(2, 1, none)]
    [(0, (1, 10)), (1, (2, 20))] 1 10 (by decide) rfl (by decide) rfl

/-- Claim C4, code-bug evidence.  `pop` on a missing key with a default `42`
evaluates `self.d.pop(key, 42)[1]`, subscripting the bare default — a
`TypeError` — instead of returning the default; without a default it raises
`KeyError` as claimed, and on a live key it returns the stored value. -/
theorem c4_pop_eval :
    (((TTLDict.init 10 [] : TTLDict Nat Nat).pop 0 0 (some 42)).2.2 =
        .error .typeError) ∧
    (((TTLDict.init 10 [] : TTLDict Nat Nat).pop 0 0 none).2.2 =
        .error .keyError) ∧
    ((((TTLDict.init 10 [] : TTLDict Nat Nat).setitem 0 0 42).1.pop 1 0
        none).2.2 = .ok 42) :=
  ⟨rfl, rfl, rfl⟩

/-- Claim C5, counterexample to the claim as stated.  With ttl 10 and a write
at time 0, a read at time 10 — which is `≥ t + ttl`, where the claim demands
absence — still finds the key present, because every expiry comparison in the
source is strict (`<`). -/
theorem c5_counterexample :
    (0 : Nat) + 10 ≤ 10 ∧
    ((((TTLDict.init 10 [] : TTLDict Nat Nat).setitem 0 0 1).1.contains
        10 0).2.2 = .ok true) :=
  ⟨by decide, rfl⟩

/-- Claim C5 as amended: after writing key `k` at time `t` (into a state
whose queue is time-sorted, bounded by `t + ttl`, and free of raising
callbacks), `contains` answers true and index-read returns the value for
every read at time `r ≤ t + ttl` — including the boundary `r = t + ttl` —
and `contains` answers false and index-read fails with `KeyError` for every
read at time `r > t + ttl` (strictly). -/
theorem c5_expiry_amended [DecidableEq K] (st : TTLDict K V) (t r : Nat)
    (k : K) (v : V)
    (hs : qSortedB st.expiring_queue = true)
    (hb : ∀ e ∈ st.expiring_queue, e.1 ≤ t + st.ttl)
    (hnr : noRaise st.expiring_queue = true) :
    (r ≤ t + st.ttl →
      (((st.setitem t k v).1.contains r k).2.2 = .ok true ∧
        ((st.setitem t k v).1.getitem r k).2.2 = .ok v)) ∧
    (t + st.ttl < r →
      (((st.setitem t k v).1.contains r k).2.2 = .ok false ∧
        ((st.setitem t k v).1.getitem r k).2.2 = .error .keyError)) := by
  have hst := setitem_state st t k v hnr
  have hsub : (purgeLoop t st.expiring_queue st.d).q <:+ st.expiring_queue :=
    purgeLoop_suffix t st.expiring_queue st.d
  have hq1 : (st.setitem t k v).1.expiring_queue =
      (purgeLoop t st.expiring_queue st.d).q ++ [(t + st.ttl, k, none)] := by
    rw [hst]
  have hd1 : dlookup (st.setitem t k v).1.d k = some (t + st.ttl, v) := by
    rw [hst]
    exact dlookup_dinsert_self _ _ _
  have hs1 : qSortedB (st.setitem t k v).1.expiring_queue = true := by
    rw [hq1]
    refine qSortedB_append_one _ _ (qSortedB_suffix hsub hs) ?_
    intro e he
    exact hb e (hsub.sublist.subset he)
  have hnr1 : noRaise (st.setitem t k v).1.expiring_queue = true := by
    rw [hq1]
    refine noRaise_append_one _ _ _ _ ?_ (noRaise_suffix hsub hnr)
    intro c hc
    cases hc
  constructor
  · intro hr
    exact contains_getitem_live _ r k (t + st.ttl) v hnr1 hd1 hr
  · intro hr
    refine contains_getitem_dead _ r k hs1 hnr1 ?_ ?_
    · refine ⟨t + st.ttl, none, ?_, hr⟩
      rw [hq1]
      exact List.mem_append_right _ (by simp)
    · intro e' v' h'
      rw [hd1] at h'
      injection h' with h'
      have h2 : t + st.ttl = e' := congrArg Prod.fst h'
      omega

theorem c5_witness :
    ((((TTLDict.init 10 [] : TTLDict Nat Nat).setitem 0 0 1).1.contains
        5 0).2.2 = .ok true) ∧
    ((((TTLDict.init 10 [] : TTLDict Nat Nat).setitem 0 0 1).1.contains
        15 0).2.2 = .ok false) := by
  constructor
  · exact ((c5_expiry_amended (TTLDict.init 10 [] : TTLDict Nat Nat) 0 5 0 1
      rfl (by simp [TTLDict.init]) rfl).1 (by decide)).1
  · exact ((c5_expiry_amended (TTLDict.init 10 [] : TTLDict Nat Nat) 0 15 0 1
      rfl (by simp [TTLDict.init]) rfl).2 (by decide)).1

/-- Claim C6, counterexample to the claim as stated.  Construction with an
initial entry — even one already shaped as an `(expiration, value)` pair —
creates no expiration-queue entry for it, so invariant I1 fails immediately
after the public construction operation, and such a key is never revisited
for expiry. -/
theorem c6_counterexample :
    ¬ I1inv (TTLDict.init 10 [(0, (5, 42))] : TTLDict Nat Nat) := by
  intro h
  obtain ⟨cb, hcb⟩ := h 0 5 42 rfl
  simp [TTLDict.init] at hcb

/-- Claim C6 as amended: invariant I1 (every key present in the Primary Store
with expiration `e` has a queue entry `(e, k, _)` still in the queue) is
established by construction WITHOUT initial entries and preserved by
`__setitem__`, `set` and `purge`; construction WITH initial entries violates
it, since no queue entries are created for them. -/
theorem c6_i1_amended [DecidableEq K] :
    (∀ ttl : Nat, I1inv (TTLDict.init ttl ([] : List (K × Nat × V)))) ∧
    (∀ (st : TTLDict K V) (now : Nat) (k : K) (v : V),
      I1inv st → I1inv (st.setitem now k v).1) ∧
    (∀ (st : TTLDict K V) (now : Nat) (k : K) (v : V) (cb : Option Cb),
      I1inv st → I1inv (st.set now k v cb).1) ∧
    (∀ (st : TTLDict K V) (now : Nat), I1inv st → I1inv (st.purge now).1) := by
  have hwrite : ∀ (st : TTLDict K V) (now : Nat) (k : K) (v : V)
      (cb : Option Cb), I1inv st →
      (∀ k' e' v', dlookup (dinsert (purgeLoop now st.expiring_queue st.d).d k
          (now + st.ttl, v)) k' = some (e', v') →
        ∃ cb', (e', k', cb') ∈ (purgeLoop now st.expiring_queue st.d).q ++
          [(now + st.ttl, k, cb)]) := by
    intro st now k v cb h k' e' v' hk'
    by_cases hkk : k' = k
    · subst hkk
      rw [dlookup_dinsert_self] at hk'
      injection hk' with hk'
      have he : now + st.ttl = e' := congrArg Prod.fst hk'
      subst he
      exact ⟨cb, List.mem_append_right _ (by simp)⟩
    · rw [dlookup_dinsert_ne _ _ _ _ hkk] at hk'
      obtain ⟨cb', hcb'⟩ :=
        purgeLoop_I1 now st.expiring_queue st.d h k' e' v' hk'
      exact ⟨cb', List.mem_append_left _ hcb'⟩
  refine ⟨?_, ?_, ?_, ?_⟩
  · intro ttl k e v h
    cases h
  · intro st now k v h k' e' v' hk'
    by_cases hexn : (purgeLoop now st.expiring_queue st.d).exn = true
    · have ed : (st.setitem now k v).1.d =
          (purgeLoop now st.expiring_queue st.d).d := by
        simp [TTLDict.setitem, hexn]
      have eq2 : (st.setitem now k v).1.expiring_queue =
          (purgeLoop now st.expiring_queue st.d).q := by
        simp [TTLDict.setitem, hexn]
      rw [ed] at hk'
      rw [eq2]
      exact purgeLoop_I1 now st.expiring_queue st.d h k' e' v' hk'
    · have ed : (st.setitem now k v).1.d =
          dinsert (purgeLoop now st.expiring_queue st.d).d k
            (now + st.ttl, v) := by
        simp [TTLDict.setitem, hexn]
      have eq2 : (st.setitem now k v).1.expiring_queue =
          (purgeLoop now st.expiring_queue st.d).q ++
            [(now + st.ttl, k, none)] := by
        simp [TTLDict.setitem, hexn]
      rw [ed] at hk'
      rw [eq2]
      exact hwrite st now k v none h k' e' v' hk'
  · intro st now k v cb h k' e' v' hk'
    by_cases hexn : (purgeLoop now st.expiring_queue st.d).exn = true
    · have ed : (st.set now k v cb).1.d =
          (purgeLoop now st.expiring_queue st.d).d := by
        simp [TTLDict.set, hexn]
      have eq2 : (st.set now k v cb).1.expiring_queue =
          (purgeLoop now st.expiring_queue st.d).q := by
        simp [TTLDict.set, hexn]
      rw [ed] at hk'
      rw [eq2]
      exact purgeLoop_I1 now st.expiring_queue st.d h k' e' v' hk'
    · have ed : (st.set now k v cb).1.d =
          dinsert (purgeLoop now st.expiring_queue st.d).d k
            (now + st.ttl, v) := by
        simp [TTLDict.set, hexn]
      have eq2 : (st.set now k v cb).1.expiring_queue =
          (purgeLoop now st.expiring_queue st.d).q ++
            [(now + st.ttl, k, cb)] := by
        simp [TTLDict.set, hexn]
      rw [ed] at hk'
      rw [eq2]
      exact hwrite st now k v cb h k' e' v' hk'
  · intro st now h k e v hk
    exact purgeLoop_I1 now st.expiring_queue st.d h k e v hk

theorem c6_witness :
    I1inv ((TTLDict.init 10 ([] : List (Nat × Nat × Nat))).setitem 0 0 1).1 := by
  refine (@c6_i1_amended Nat Nat _).2.1 (TTLDict.init 10 []) 0 0 1 ?_
  intro k e v h
  cases h

/-- Claim C7: `setdefault` on a live key returns the currently stored value
(not the supplied default) and leaves the stored expiration unchanged; on an
absent-or-expired key (with sorted, non-raising queue and, for the expired
case, a reachable queue entry) it writes the default with fresh expiration
`now + ttl`, appends a matching queue entry, and returns the default. -/
theorem c7_setdefault [DecidableEq K] (st : TTLDict K V) (now : Nat) (k : K)
    (x : V) (hnr : noRaise st.expiring_queue = true) :
    (∀ e v, dlookup st.d k = some (e, v) → now ≤ e →
      ((st.setdefault now k x).2.2 = .ok v ∧
        dlookup (st.setdefault now k x).1.d k = some (e, v))) ∧
    (qSortedB st.expiring_queue = true →
      (dlookup st.d k = none ∨
        ∃ e v ts cb, dlookup st.d k = some (e, v) ∧ e < now ∧
          (ts, k, cb) ∈ st.expiring_queue ∧ ts < now) →
      ((st.setdefault now k x).2.2 = .ok x ∧
        dlookup (st.setdefault now k x).1.d k = some (now + st.ttl, x) ∧
        (now + st.ttl, k, none) ∈ (st.setdefault now k x).1.expiring_queue)) := by
  have hexn := purgeLoop_noRaise now st.expiring_queue st.d hnr
  constructor
  · intro e v h hle
    have hlv := (purgeLoop_live now st.expiring_queue st.d k e v h hle).1
    constructor
    · simp [TTLDict.setdefault, hexn, hlv]
    · simp [TTLDict.setdefault, hexn, hlv]
  · intro hs hdead
    have hnone : dlookup (purgeLoop now st.expiring_queue st.d).d k = none := by
      rcases hdead with h | ⟨e, v, ts, cb, h, he, hmem, hts⟩
      · exact (purgeLoop_absent now st.expiring_queue st.d k h).1
      · refine purgeLoop_kills now st.expiring_queue st.d k hs hnr
          ⟨ts, cb, hmem, hts⟩ ?_
        intro e' v' h'
        rw [h] at h'
        injection h' with h'
        have h2 : e = e' := congrArg Prod.fst h'
        omega
    have hid := purgeLoop_idem now st.expiring_queue st.d hexn
    refine ⟨?_, ?_, ?_⟩
    · simp [TTLDict.setdefault, hexn, hnone, TTLDict.setitem, hid, Except.map]
    · simp [TTLDict.setdefault, hexn, hnone, TTLDict.setitem, hid,
        dlookup_dinsert_self]
    · simp [TTLDict.setdefault, hexn, hnone, TTLDict.setitem, hid]

theorem c7_witness :
    ((((TTLDict.init 10 [] : TTLDict Nat Nat).setitem 0 0 1).1.setdefault
        3 0 99).2.2 = .ok 1) ∧
    (((TTLDict.init 10 [] : TTLDict Nat Nat).setdefault 0 0 5).2.2 = .ok 5) := by
  constructor
  · exact ((c7_setdefault ((TTLDict.init 10 [] : TTLDict Nat Nat).setitem
      0 0 1).1 3 0 99 rfl).1 10 1 rfl (by decide)).1
  · exact ((c7_setdefault (TTLDict.init 10 [] : TTLDict Nat Nat) 0 0 5
      rfl).2 rfl (Or.inl rfl)).1

/-- Claim C8: `clear` empties both the Primary Store and the Expiration
Queue unconditionally, runs no purge pass and invokes no callback (the
`Fired` log of `clear` is empty), and since the queue is emptied, a purge of
the cleared state at any later time fires nothing and changes nothing — so
pending callbacks wiped by `clear` never fire. -/
theorem c8_clear [DecidableEq K] (st : TTLDict K V) :
    (st.clear).1.d = [] ∧ (st.clear).1.expiring_queue = [] ∧
      (st.clear).2 = [] ∧
      ∀ t : Nat, (st.clear).1.purge t = ((st.clear).1, [], false) :=
  ⟨rfl, rfl, rfl, fun _ => rfl⟩

theorem get_live_aux [DecidableEq K] (st : TTLDict K V) (now : Nat) (k : K)
    (dflt : Option V) (e : Nat) (v : V)
    (hnr : noRaise st.expiring_queue = true)
    (h : dlookup st.d k = some (e, v)) (hle : now ≤ e) :
    (st.get now k dflt).2.2 = .ok (some v) := by
  have hexn := purgeLoop_noRaise now st.expiring_queue st.d hnr
  have hlv := (purgeLoop_live now st.expiring_queue st.d k e v h hle).1
  simp [TTLDict.get, hexn, hlv]

theorem get_dead_aux [DecidableEq K] (st : TTLDict K V) (now : Nat) (k : K)
    (dflt : Option V)
    (hs : qSortedB st.expiring_queue = true)
    (hnr : noRaise st.expiring_queue = true)
    (hdead : dlookup st.d k = none ∨
      ∃ e v ts cb, dlookup st.d k = some (e, v) ∧ e < now ∧
        (ts, k, cb) ∈ st.expiring_queue ∧ ts < now) :
    (st.get now k dflt).2.2 = .ok dflt := by
  have hexn := purgeLoop_noRaise now st.expiring_queue st.d hnr
  have hnone : dlookup (purgeLoop now st.expiring_queue st.d).d k = none := by
    rcases hdead with h | ⟨e, v, ts, cb, h, he, hmem, hts⟩
    · exact (purgeLoop_absent now st.expiring_queue st.d k h).1
    · refine purgeLoop_kills now st.expiring_queue st.d k hs hnr
        ⟨ts, cb, hmem, hts⟩ ?_
      intro e' v' h'
      rw [h] at h'
      injection h' with h'
      have h2 : e = e' := congrArg Prod.fst h'
      omega
  simp [TTLDict.get, hexn, hnone]

/-- Claim C9: `get` with a supplied default returns the default verbatim for
an absent-or-expired key (with sorted, non-raising queue and, for the expired
case, a reachable queue entry) — the `(0, default)` wrapper and `[1]`
subscript cancel, so no TTL comparison touches it — and returns the stored
value stripped of its expiration for a live key. -/
theorem c9_get_default [DecidableEq K] (st : TTLDict K V) (now : Nat) (k : K)
    (d0 : V) (hnr : noRaise st.expiring_queue = true) :
    (∀ e v, dlookup st.d k = some (e, v) → now ≤ e →
      (st.get now k (some d0)).2.2 = .ok (some v)) ∧
    (qSortedB st.expiring_queue = true →
      (dlookup st.d k = none ∨
        ∃ e v ts cb, dlookup st.d k = some (e, v) ∧ e < now ∧
          (ts, k, cb) ∈ st.expiring_queue ∧ ts < now) →
      (st.get now k (some d0)).2.2 = .ok (some d0)) := by
  constructor
  · intro e v h hle
    exact get_live_aux st now k (some d0) e v hnr h hle
  · intro hs hdead
    exact get_dead_aux st now k (some d0) hs hnr hdead

theorem c9_witness :
    (((TTLDict.init 10 [] : TTLDict Nat Nat).get 0 0 (some 7)).2.2 =
        .ok (some 7)) ∧
    ((((TTLDict.init 10 [] : TTLDict Nat Nat).setitem 0 0 1).1.get 3 0
        (some 7)).2.2 = .ok (some 1)) := by
  constructor
  · exact (c9_get_default (TTLDict.init 10 [] : TTLDict Nat Nat) 0 0 7
      rfl).2 rfl (Or.inl rfl)
  · exact (c9_get_default ((TTLDict.init 10 [] : TTLDict Nat Nat).setitem
      0 0 1).1 3 0 7 rfl).1 10 1 rfl (by decide)

/-- Claim C10: `get` called without a default argument returns Python `None`
(the `default` parameter defaults to `None`) for an absent-or-expired key
(with sorted, non-raising queue and, for the expired case, a reachable queue
entry), rather than failing. -/
theorem c10_get_none [DecidableEq K] (st : TTLDict K V) (now : Nat) (k : K)
    (hnr : noRaise st.expiring_queue = true)
    (hs : qSortedB st.expiring_queue = true)
    (hdead : dlookup st.d k = none ∨
      ∃ e v ts cb, dlookup st.d k = some (e, v) ∧ e < now ∧
        (ts, k, cb) ∈ st.expiring_queue ∧ ts < now) :
    (st.get now k none).2.2 = .ok none :=
  get_dead_aux st now k none hs hnr hdead

theorem c10_witness :
    ((TTLDict.init 10 [] : TTLDict Nat Nat).get 0 0 none).2.2 = .ok none :=
  c10_get_none (TTLDict.init 10 [] : TTLDict Nat Nat) 0 0 rfl rfl (Or.inl rfl)
